import Mathlib

/-!
Verification of the file-based symbol/timeframe catalog of a market-data
access layer.  Python strings are modelled as `List Char` with ASCII case
mapping (`Char.toUpper`/`Char.toLower` match Python's behaviour on the
ASCII range used by symbols and frequency codes).  Filesystem state is
modelled as a directory record holding the list of file names it
contains; wall-clock timestamps (`loaded_at` metadata) are outside the
model.  All definitions are transcribed from `backtest_lab/data`.
-/

abbrev Str := List Char

/-- Python `str.isspace` characters relevant to `str.strip()` (ASCII). -/
def pyIsSpace (c : Char) : Bool :=
  c = ' ' || c = '\t' || c = '\n' || c = '\r' || c = '\x0b' || c = '\x0c'

/-- Python `str.lower()` (ASCII model). -/
def pyLower (s : Str) : Str := s.map Char.toLower

/-- Python `str.upper()` (ASCII model). -/
def pyUpper (s : Str) : Str := s.map Char.toUpper

/-- Python `str.strip()`: drop leading and trailing whitespace. -/
def pyStrip (s : Str) : Str :=
  (((s.dropWhile pyIsSpace).reverse.dropWhile pyIsSpace)).reverse

/-- Lexicographic comparison of strings by code point, as Python `<=` on `str`. -/
def lexLe : Str → Str → Bool
  | [], _ => true
  | _ :: _, [] => false
  | a :: as, b :: bs => if a < b then true else if a = b then lexLe as bs else false

/-- The `DataFrequency` enumeration from `backtest_lab/data/base.py`. -/
inductive DataFrequency where
  | MINUTE_1 | MINUTE_5 | MINUTE_15 | MINUTE_30
  | HOUR_1 | HOUR_4 | DAILY | WEEKLY | MONTHLY
  deriving DecidableEq, Fintype

/-- The `.value` string code of each `DataFrequency` member. -/
def DataFrequency.value : DataFrequency → Str
  | .MINUTE_1 => "1m".data
  | .MINUTE_5 => "5m".data
  | .MINUTE_15 => "15m".data
  | .MINUTE_30 => "30m".data
  | .HOUR_1 => "1h".data
  | .HOUR_4 => "4h".data
  | .DAILY => "1d".data
  | .WEEKLY => "1wk".data
  | .MONTHLY => "1mo".data

/-- Iteration order of `for freq in DataFrequency` (declaration order). -/
def frequencyList : List DataFrequency :=
  [.MINUTE_1, .MINUTE_5, .MINUTE_15, .MINUTE_30, .HOUR_1, .HOUR_4, .DAILY, .WEEKLY, .MONTHLY]

/-- Replacement of path-hostile characters done by `generate_filename`. -/
def safeChar (c : Char) : Char :=
  if c = '/' ∨ c = '\\' ∨ c = ':' then '_' else c

/-- Transcription of `generate_filename` in `base.py`: replace `/`, `\`, `:`
by `_`, lower-case, then append `_<frequency code><extension>`. -/
def generate_filename (symbol : Str) (frequency : DataFrequency) (extension : Str) : Str :=
  (pyLower (symbol.map safeChar) ++ '_' :: frequency.value) ++ extension

/-- Split a name at its last dot: `some (before, after)` if a dot occurs. -/
def splitAtLastDot : Str → Option (Str × Str)
  | [] => none
  | c :: cs =>
    match splitAtLastDot cs with
    | some (p, s) => some (c :: p, s)
    | none => if c = '.' then some ([], cs) else none

/-- Transcription of `pathlib.Path(name).stem`: the name without its final
extension; a name with no dot strictly inside is returned whole. -/
def stemOf (l : Str) : Str :=
  match splitAtLastDot l with
  | some (p, s) => if p ≠ [] ∧ s ≠ [] then p else l
  | none => l

/-- Transcription of `pathlib.Path(name).suffix` followed by `.lower()`. -/
def suffixLower (l : Str) : Str :=
  match splitAtLastDot l with
  | some (p, s) => if p ≠ [] ∧ s ≠ [] then pyLower ('.' :: s) else []
  | none => []

/-- Transcription of `parse_filename` in `base.py`: strip the extension,
then try each frequency code in declaration order as a `_code` suffix of
the stem; first match wins; otherwise the whole stem is the symbol. -/
def parse_filename (filename : Str) : Str × Option DataFrequency :=
  match frequencyList.find? (fun f => ('_' :: f.value).isSuffixOf (stemOf filename)) with
  | some f =>
    (pyUpper ((stemOf filename).take ((stemOf filename).length - (f.value.length + 1))), some f)
  | none => (pyUpper (stemOf filename), none)

/-- Transcription of `MarketDataRequest.validate_symbol` in `base.py`:
reject empty input, strip and upper-case, reject blank results. -/
def validate_symbol (v : Str) : Except Str Str :=
  if v = [] then .error "Symbol cannot be empty".data
  else
    let cleaned := pyUpper (pyStrip v)
    if cleaned = [] then .error "Symbol cannot be empty after cleaning".data
    else .ok cleaned

/-- Symbol normalization as the spec words it: trim then upper-case. -/
def normalizeSymbol (s : Str) : Str := pyUpper (pyStrip s)

-- Character-level facts about the ASCII case maps.

theorem char_toNat_ofNat_valid {n : Nat} (h : n.isValidChar) : (Char.ofNat n).toNat = n := by
  rw [Char.ofNat, dif_pos h]; rfl

theorem char_toLower_eq (c : Char) :
    c.toLower = if c.toNat ≥ 65 ∧ c.toNat ≤ 90 then Char.ofNat (c.toNat + 32) else c := rfl

theorem char_toUpper_eq (c : Char) :
    c.toUpper = if c.toNat ≥ 97 ∧ c.toNat ≤ 122 then Char.ofNat (c.toNat - 32) else c := rfl

theorem char_toUpper_toLower (c : Char) : c.toLower.toUpper = c.toUpper := by
  rw [char_toLower_eq]
  by_cases h : c.toNat ≥ 65 ∧ c.toNat ≤ 90
  · rw [if_pos h, char_toUpper_eq, char_toUpper_eq]
    have hv : (c.toNat + 32).isValidChar := Or.inl (by omega)
    have ht : (Char.ofNat (c.toNat + 32)).toNat = c.toNat + 32 := char_toNat_ofNat_valid hv
    rw [ht, if_pos (by omega), if_neg (by omega)]
    have h32 : c.toNat + 32 - 32 = c.toNat := by omega
    rw [h32, Char.ofNat_toNat]
  · rw [if_neg h]

theorem char_toUpper_toUpper (c : Char) : c.toUpper.toUpper = c.toUpper := by
  by_cases h : c.toNat ≥ 97 ∧ c.toNat ≤ 122
  · rw [char_toUpper_eq c, if_pos h, char_toUpper_eq]
    have hv : (c.toNat - 32).isValidChar := Or.inl (by omega)
    have ht : (Char.ofNat (c.toNat - 32)).toNat = c.toNat - 32 := char_toNat_ofNat_valid hv
    rw [ht, if_neg (by omega)]
  · rw [char_toUpper_eq c, if_neg h, char_toUpper_eq c, if_neg h]

theorem pyUpper_pyLower (s : Str) : pyUpper (pyLower s) = pyUpper s := by
  simp only [pyUpper, pyLower, List.map_map]
  exact List.map_congr_left fun c _ => char_toUpper_toLower c

theorem pyUpper_pyUpper (s : Str) : pyUpper (pyUpper s) = pyUpper s := by
  simp only [pyUpper, List.map_map]
  exact List.map_congr_left fun c _ => char_toUpper_toUpper c

/-! Series-record persistence (`MarketData.save_to_parquet` / `save_to_csv`).
The table is abstracted to its index kind, its column names and its row
timestamps; on-disk byte encoding is delegated to pandas and out of scope. -/

/-- Whether the table's index is already datetime, convertible via
`pd.to_datetime`, or not convertible at all. -/
inductive IndexKind where
  | datetime | convertible | unconvertible
  deriving DecidableEq

/-- Abstraction of the pandas DataFrame held by a `MarketData`. -/
structure Frame where
  indexKind : IndexKind
  cols : List Str
  rows : List Int
  deriving DecidableEq

/-- The required OHLCV columns checked by `_prepare_data_for_save`. -/
def requiredColumns : List Str :=
  ["open".data, "high".data, "low".data, "close".data, "volume".data]

inductive SaveError where
  | cannotConvertIndex
  | missingColumns (missing : List Str)
  deriving DecidableEq

/-- Index-fixing step of `_prepare_data_for_save`: keep a datetime index,
else promote a `date` / `datetime` column to the index, else try
`pd.to_datetime` on the index, else fail. -/
def ensureDatetimeIndex (df : Frame) : Except SaveError Frame :=
  if df.indexKind = .datetime then .ok df
  else if "date".data ∈ df.cols then
    .ok { df with indexKind := .datetime, cols := df.cols.erase "date".data }
  else if "datetime".data ∈ df.cols then
    .ok { df with indexKind := .datetime, cols := df.cols.erase "datetime".data }
  else if df.indexKind = .convertible then .ok { df with indexKind := .datetime }
  else .error .cannotConvertIndex

/-- Transcription of `MarketData._prepare_data_for_save`: fix the index,
check the required OHLCV columns, sort rows ascending by timestamp. -/
def prepare_data_for_save (df : Frame) : Except SaveError Frame :=
  match ensureDatetimeIndex df with
  | .error e => .error e
  | .ok df2 =>
    if requiredColumns.filter (fun c => c ∉ df2.cols) ≠ [] then
      .error (.missingColumns (requiredColumns.filter (fun c => c ∉ df2.cols)))
    else .ok { df2 with rows := df2.rows.insertionSort (· ≤ ·) }

/-- Filesystem writes a save performs, in order. -/
inductive WriteOp where
  | dataFile | metadataFile
  deriving DecidableEq

/-- Transcription of `MarketData.save_to_parquet`: prepare (raising before
anything is written), write the data file, then the optional sibling
metadata file. The result lists the files written. -/
def save_to_parquet (df : Frame) (hasMetadata : Bool) : Except SaveError (List WriteOp) :=
  match prepare_data_for_save df with
  | .error e => .error e
  | .ok _ => .ok ([WriteOp.dataFile] ++ if hasMetadata then [WriteOp.metadataFile] else [])

/-- Transcription of `MarketData.save_to_csv`; identical write discipline. -/
def save_to_csv (df : Frame) (hasMetadata : Bool) : Except SaveError (List WriteOp) :=
  match prepare_data_for_save df with
  | .error e => .error e
  | .ok _ => .ok ([WriteOp.dataFile] ++ if hasMetadata then [WriteOp.metadataFile] else [])

/-! Datetime model for date-range filtering.  A Python `datetime` is a wall
clock value (`wall`) plus an optional fixed utc offset (`tz`); a pandas
`DatetimeIndex` carries one optional timezone for all entries. -/

structure PyDateTime where
  wall : Int
  tz : Option Int
  deriving DecidableEq

/-- Timezone reconciliation applied to each bound inside
`_filter_by_date_range` (`file_provider.py`, lines 193-221): naive bound
with aware index gets the index timezone attached via `replace`; aware
bound with naive index is stripped via `replace(tzinfo=None)`; aware bound
with aware index is converted via `astimezone` (instant preserved). -/
def reconcileBound (idxTz : Option Int) (b : PyDateTime) : PyDateTime :=
  match idxTz with
  | some z =>
    match b.tz with
    | none => ⟨b.wall, some z⟩
    | some o => ⟨b.wall - o + z, some z⟩
  | none =>
    match b.tz with
    | some _ => ⟨b.wall, none⟩
    | none => b

/-- Metadata bag, restricted to the keys this component reads or writes.
`none` means the key is absent; `loaded_at` (a wall-clock timestamp) is
outside the model. -/
structure Metadata where
  filtered : Option Bool := none
  filter_start_date : Option (Option PyDateTime) := none
  filter_end_date : Option (Option PyDateTime) := none
  original_rows : Option Nat := none
  filtered_rows : Option Nat := none
  provider : Option Str := none
  source_file : Option Str := none
  frequency : Option (Option Str) := none
  deriving DecidableEq

/-- In-memory record of a loaded series: symbol, row timestamps (wall
values of the single-timezone time index), the index timezone, metadata. -/
structure MarketData where
  symbol : Str
  rows : List Int
  tz : Option Int
  meta : Option Metadata
  deriving DecidableEq

/-- Transcription of `FileDataProvider._filter_by_date_range`: reconcile
each given bound with the index timezone, keep rows `>= start` then rows
`<= end`, and return a copy whose metadata gains the filter fields. -/
def filter_by_date_range (md : MarketData) (start_date end_date : Option PyDateTime) :
    MarketData :=
  let start' := start_date.map (reconcileBound md.tz)
  let end' := end_date.map (reconcileBound md.tz)
  let rows1 := match start' with
    | some b => md.rows.filter (fun t => b.wall ≤ t)
    | none => md.rows
  let rows2 := match end' with
    | some b => rows1.filter (fun t => t ≤ b.wall)
    | none => rows1
  let base := md.meta.getD {}
  { symbol := md.symbol, rows := rows2, tz := md.tz,
    meta := some { base with
      filtered := some true,
      filter_start_date := some start',
      filter_end_date := some end',
      original_rows := some md.rows.length,
      filtered_rows := some rows2.length } }

/-! The file catalog provider.  A directory is its path string, whether it
exists, and the names of the (regular) files it contains in iteration
order. -/

structure Dir where
  name : Str
  present : Bool
  files : List Str

/-- `FileDataProvider.supported_formats`. -/
def supportedFormats : List Str := [".parquet".data, ".csv".data]

/-- Association-list lookup modelling Python `dict` key lookup. -/
def alookup {α : Type} (m : List (Str × α)) (k : Str) : Option α :=
  match m with
  | [] => none
  | (k', v) :: r => if k' = k then some v else alookup r k

/-- Update every entry of key `k` (Python `dict` value assignment). -/
def aupdate {α : Type} (m : List (Str × α)) (k : Str) (f : α → α) : List (Str × α) :=
  match m with
  | [] => []
  | (k', v) :: r => (if k' = k then (k', f v) else (k', v)) :: aupdate r k f

/-- Stage 1 of `_find_file_for_symbol`: exact codec filename per supported
extension, columnar first. -/
def findExact (d : Dir) (symbol : Str) (f : DataFrequency) : Option Str :=
  supportedFormats.findSome? (fun ext =>
    let fn := generate_filename symbol f ext
    if fn ∈ d.files then some fn else none)

/-- Stage 2 of `_find_file_for_symbol`: legacy `<symbol><ext>` names for
lower-case, upper-case and as-given symbol variants. -/
def findLegacyNamed (d : Dir) (symbol : Str) : Option Str :=
  [pyLower symbol, pyUpper symbol, symbol].findSome? (fun pat =>
    supportedFormats.findSome? (fun ext =>
      let fn := pat ++ ext
      if fn ∈ d.files then some fn else none))

/-- Stage 3 of `_find_file_for_symbol`: scan the directory for the first
supported file whose decoded symbol equals the upper-cased input. -/
def findByScan (d : Dir) (symbol : Str) : Option Str :=
  d.files.find? (fun fn =>
    decide (suffixLower fn ∈ supportedFormats) && decide ((parse_filename fn).1 = pyUpper symbol))

/-- Transcription of `FileDataProvider._find_file_for_symbol`: three-stage
search; a missing directory yields `none`. -/
def find_file_for_symbol (d : Dir) (symbol : Str) (frequency : Option DataFrequency) :
    Option Str :=
  if d.present then
    (match frequency with
     | some f => findExact d symbol f
     | none => none) <|> (findLegacyNamed d symbol <|> findByScan d symbol)
  else none

/-- Sort a list of strings lexicographically (Python `sorted` on `str`). -/
def sortStrs (l : List Str) : List Str :=
  l.insertionSort (fun a b => lexLe a b = true)

/-- Order on frequencies induced by their code strings: the key order of
Python `sort(key=lambda x: x.value)` and `sorted(..., key=lambda x: x.value)`. -/
def freqLe (a b : DataFrequency) : Prop := lexLe a.value b.value = true

instance : DecidableRel freqLe :=
  fun a b => inferInstanceAs (Decidable (lexLe a.value b.value = true))

instance : IsTrans DataFrequency freqLe := ⟨by decide⟩

instance : IsTotal DataFrequency freqLe := ⟨by decide⟩

/-- Sort frequencies by their code string (Python `sort(key=lambda x: x.value)`). -/
def sortFreqs (l : List DataFrequency) : List DataFrequency :=
  l.insertionSort freqLe

/-- Transcription of `FileDataProvider.get_available_symbols`: decoded
symbols of supported files, as a sorted deduplicated list. -/
def get_available_symbols (d : Dir) : List Str :=
  if d.present then
    sortStrs (((d.files.filter (fun fn => decide (suffixLower fn ∈ supportedFormats))).map
      (fun fn => (parse_filename fn).1)).dedup)
  else []

/-- The frequency one directory entry contributes to
`get_available_timeframes symbol`: its decoded frequency when the file is
supported and decodes to the (upper-cased) symbol, nothing otherwise. -/
def timeframeOf (symbol fn : Str) : Option DataFrequency :=
  if suffixLower fn ∈ supportedFormats then
    match parse_filename fn with
    | (ps, some f) => if ps = pyUpper symbol then some f else none
    | (_, none) => none
  else none

/-- Transcription of `FileDataProvider.get_available_timeframes`: collect
the frequency of every supported file decoding to the symbol (no
deduplication), sorted by code string. -/
def get_available_timeframes (d : Dir) (symbol : Str) : List DataFrequency :=
  if d.present then sortFreqs (d.files.filterMap (timeframeOf symbol))
  else []

/-- The `combinations.setdefault`-like insertion done per directory entry:
add the symbol with an empty list when the key is new. -/
def insertKey (m : List (Str × List DataFrequency)) (k : Str) :
    List (Str × List DataFrequency) :=
  if (alookup m k).isSome then m else m ++ [(k, [])]

/-- One directory entry processed by `get_symbol_timeframe_combinations`:
skip unsupported extensions, register the decoded symbol, and append its
decoded frequency when present and not already listed. -/
def combosStep (m : List (Str × List DataFrequency)) (fn : Str) :
    List (Str × List DataFrequency) :=
  if suffixLower fn ∈ supportedFormats then
    match (parse_filename fn).2 with
    | some f =>
      aupdate (insertKey m (parse_filename fn).1) (parse_filename fn).1
        (fun l => if f ∈ l then l else l ++ [f])
    | none => insertKey m (parse_filename fn).1
  else m

/-- Transcription of `FileDataProvider.get_symbol_timeframe_combinations`:
one scan building symbol → frequency-list, then each list sorted by code. -/
def get_symbol_timeframe_combinations (d : Dir) : List (Str × List DataFrequency) :=
  if d.present then
    (d.files.foldl combosStep []).map (fun p => (p.1, sortFreqs p.2))
  else []

/-- The not-found message raised by `FileDataProvider.get_data`. -/
def notFoundMsg (symbol : Str) (frequency : DataFrequency) (dirName : Str) : Str :=
  "No data file found for symbol ".data ++ symbol ++
    " with frequency ".data ++ frequency.value ++ " in ".data ++ dirName

/-- Validated request reaching `FileDataProvider.get_data`. -/
structure MarketDataRequest where
  symbol : Str
  frequency : DataFrequency
  start_date : Option PyDateTime
  end_date : Option PyDateTime

/-- Transcription of `FileDataProvider._add_provider_metadata`: stamp
provider name, source path and frequency code (re-decoded from the
filename when absent); `loaded_at` is outside the model. -/
def add_provider_metadata (d : Dir) (md : MarketData) (fn : Str)
    (frequency : Option DataFrequency) : MarketData :=
  let m := md.meta.getD {}
  let freq := match frequency with
    | none => (parse_filename fn).2
    | some f => some f
  { md with meta := some { m with
      provider := some "File Data Provider".data,
      source_file := some (d.name ++ '/' :: fn),
      frequency := some (freq.map DataFrequency.value) } }

/-- Transcription of `FileDataProvider.get_data`: resolve the file (raising
the not-found message when none), load it (`loadFile` stands for the
pandas readers), filter by dates when either bound is set, stamp the
provider metadata. -/
def get_data (d : Dir) (loadFile : Str → MarketData) (req : MarketDataRequest) :
    Except Str MarketData :=
  match find_file_for_symbol d req.symbol (some req.frequency) with
  | none => .error (notFoundMsg req.symbol req.frequency d.name)
  | some fn =>
    let md := loadFile fn
    let md := if req.start_date.isSome || req.end_date.isSome then
        filter_by_date_range md req.start_date req.end_date
      else md
    .ok (add_provider_metadata d md fn (some req.frequency))

/-! The request router (`StockDataLoader.get_multiple_symbols`). -/

/-- Python `results[symbol] = data`: replace an existing key in place,
else append. -/
def dictInsert {α : Type} (m : List (Str × α)) (k : Str) (v : α) : List (Str × α) :=
  if (alookup m k).isSome then aupdate m k (fun _ => v) else m ++ [(k, v)]

/-- Transcription of `StockDataLoader.get_multiple_symbols`: call the
fetch once per symbol in input order; store successes; swallow failures. -/
def get_multiple_symbols (fetch : Str → Except Str MarketData) (symbols : List Str) :
    List (Str × MarketData) :=
  symbols.foldl (fun results s =>
    match fetch s with
    | .ok data => dictInsert results s data
    | .error _ => results) []

deriving instance DecidableEq for Except

/-! Lemmas about the filename codec. -/

theorem splitAtLastDot_of_not_mem {e : Str} (he : '.' ∉ e) : splitAtLastDot e = none := by
  induction e with
  | nil => rfl
  | cons c cs ih =>
    have hc : c ≠ '.' := fun h => he (h ▸ List.mem_cons_self c cs)
    have hcs : '.' ∉ cs := fun h => he (List.mem_cons_of_mem _ h)
    simp [splitAtLastDot, ih hcs, hc]

theorem splitAtLastDot_append (a : Str) {e : Str} (he : '.' ∉ e) :
    splitAtLastDot (a ++ '.' :: e) = some (a, e) := by
  induction a with
  | nil => simp [splitAtLastDot, splitAtLastDot_of_not_mem he]
  | cons c cs ih => simp [splitAtLastDot, ih]

theorem stemOf_append (a : Str) {e : Str} (ha : a ≠ []) (he : e ≠ []) (hd : '.' ∉ e) :
    stemOf (a ++ '.' :: e) = a := by
  simp [stemOf, splitAtLastDot_append a hd, ha, he]

theorem suffixLower_append (a : Str) {e : Str} (ha : a ≠ []) (he : e ≠ []) (hd : '.' ∉ e) :
    suffixLower (a ++ '.' :: e) = pyLower ('.' :: e) := by
  simp [suffixLower, splitAtLastDot_append a hd, ha, he]

theorem generate_filename_eq (symbol : Str) (f : DataFrequency) (ext : Str) :
    generate_filename symbol f ext = (pyLower (symbol.map safeChar) ++ '_' :: f.value) ++ ext := rfl

theorem gen_pre_ne_nil (symbol : Str) (f : DataFrequency) :
    pyLower (symbol.map safeChar) ++ '_' :: f.value ≠ [] := by simp

theorem suffixLower_generate (symbol : Str) (f : DataFrequency) {ext : Str}
    (hext : ext ∈ supportedFormats) :
    suffixLower (generate_filename symbol f ext) = ext := by
  have hext' : ext = ".parquet".data ∨ ext = ".csv".data := by
    simpa [supportedFormats] using hext
  rcases hext' with h | h <;> subst h
  · rw [generate_filename_eq, show (".parquet".data : Str) = '.' :: "parquet".data from rfl,
      suffixLower_append _ (gen_pre_ne_nil _ _) (by decide) (by decide)]
    decide
  · rw [generate_filename_eq, show (".csv".data : Str) = '.' :: "csv".data from rfl,
      suffixLower_append _ (gen_pre_ne_nil _ _) (by decide) (by decide)]
    decide

theorem stemOf_generate (symbol : Str) (f : DataFrequency) {ext : Str}
    (hext : ext ∈ supportedFormats) :
    stemOf (generate_filename symbol f ext) = pyLower (symbol.map safeChar) ++ '_' :: f.value := by
  have hext' : ext = ".parquet".data ∨ ext = ".csv".data := by
    simpa [supportedFormats] using hext
  rcases hext' with h | h <;> subst h
  · rw [generate_filename_eq, show (".parquet".data : Str) = '.' :: "parquet".data from rfl,
      stemOf_append _ (gen_pre_ne_nil _ _) (by decide) (by decide)]
  · rw [generate_filename_eq, show (".csv".data : Str) = '.' :: "csv".data from rfl,
      stemOf_append _ (gen_pre_ne_nil _ _) (by decide) (by decide)]

theorem tag_not_suffix_tag : ∀ g f : DataFrequency, g ≠ f →
    (('_' :: g.value).isSuffixOf ('_' :: f.value) = false ∧
     ('_' :: f.value).isSuffixOf ('_' :: g.value) = false) := by decide

theorem tag_isSuffixOf_false (w : Str) {g f : DataFrequency} (hne : g ≠ f) :
    ('_' :: g.value).isSuffixOf (w ++ '_' :: f.value) = false := by
  rw [Bool.eq_false_iff]
  intro h
  rw [List.isSuffixOf_iff_suffix] at h
  have hf : ('_' :: f.value) <:+ w ++ '_' :: f.value := List.suffix_append _ _
  rcases List.suffix_or_suffix_of_suffix h hf with h1 | h1
  · rw [← List.isSuffixOf_iff_suffix] at h1
    rw [(tag_not_suffix_tag g f hne).1] at h1
    exact Bool.false_ne_true h1
  · rw [← List.isSuffixOf_iff_suffix] at h1
    rw [(tag_not_suffix_tag g f hne).2] at h1
    exact Bool.false_ne_true h1

theorem tag_isSuffixOf_self (w : Str) (f : DataFrequency) :
    ('_' :: f.value).isSuffixOf (w ++ '_' :: f.value) = true := by
  rw [List.isSuffixOf_iff_suffix]
  exact List.suffix_append _ _

theorem mem_frequencyList (f : DataFrequency) : f ∈ frequencyList := by
  cases f <;> decide

theorem find?_of_unique {α : Type} {p : α → Bool} {f : α} :
    ∀ {L : List α}, f ∈ L → p f = true → (∀ g ∈ L, g ≠ f → p g = false) →
      L.find? p = some f := by
  intro L
  induction L with
  | nil => intro h; exact absurd h (List.not_mem_nil f)
  | cons a l ih =>
    intro hmem hp hothers
    by_cases ha : a = f
    · subst ha; exact List.find?_cons_of_pos _ hp
    · have hpa : p a = false := hothers a (List.mem_cons_self _ _) ha
      rw [List.find?_cons_of_neg _ (by simp [hpa])]
      have hmem' : f ∈ l := by
        rcases List.mem_cons.mp hmem with h | h
        · exact absurd h.symm ha
        · exact h
      exact ih hmem' hp (fun g hg => hothers g (List.mem_cons_of_mem _ hg))

theorem parse_generate (s : Str) (f : DataFrequency) {ext : Str}
    (hext : ext ∈ supportedFormats) (hs : ∀ c ∈ s, safeChar c = c) :
    parse_filename (generate_filename s f ext) = (pyUpper s, some f) := by
  have hmap : s.map safeChar = s := by
    rw [List.map_congr_left hs]
    exact List.map_id s
  have hstem : stemOf (generate_filename s f ext) = pyLower s ++ '_' :: f.value := by
    rw [stemOf_generate s f hext, hmap]
  unfold parse_filename
  rw [hstem]
  rw [find?_of_unique (mem_frequencyList f) (tag_isSuffixOf_self _ f)
    (fun g _ hne => tag_isSuffixOf_false _ hne)]
  have hlen : (pyLower s ++ '_' :: f.value).length - (f.value.length + 1) = (pyLower s).length := by
    simp [List.length_append]
  dsimp only
  rw [hlen, List.take_left, pyUpper_pyLower]

/-- C1 counterexample: the symbol `" a"` has no path-hostile characters
after normalization, yet the codec round trip keeps its leading blank,
so the decoded symbol is `" A"`, not the normalized `"A"`. -/
theorem c1_roundtrip_counterexample :
    (∀ c ∈ normalizeSymbol " a".data, safeChar c = c) ∧
    ".parquet".data ∈ supportedFormats ∧
    parse_filename (generate_filename " a".data .DAILY ".parquet".data) ≠
      (normalizeSymbol " a".data, some .DAILY) := by decide

/-- C1 (amended): for every supported frequency, supported extension and
symbol free of path-hostile characters, decoding the generated filename
returns the upper-cased symbol and the exact frequency; in particular for
a symbol with no surrounding whitespace this is `(normalize(s), f)`. -/
theorem c1_roundtrip (s : Str) (f : DataFrequency) (ext : Str)
    (hext : ext ∈ supportedFormats) (hs : ∀ c ∈ s, safeChar c = c) :
    parse_filename (generate_filename s f ext) = (pyUpper s, some f) ∧
    (pyStrip s = s →
      parse_filename (generate_filename s f ext) = (normalizeSymbol s, some f)) := by
  refine ⟨parse_generate s f hext hs, fun hstrip => ?_⟩
  rw [parse_generate s f hext hs, normalizeSymbol, hstrip]

/-- Witness for C1 at a concrete symbol. -/
theorem c1_roundtrip_witness :
    parse_filename (generate_filename "petr3.sa".data .DAILY ".parquet".data) =
      (pyUpper "petr3.sa".data, some .DAILY) ∧
    parse_filename (generate_filename "petr3.sa".data .DAILY ".parquet".data) =
      (normalizeSymbol "petr3.sa".data, some .DAILY) := by
  have h := c1_roundtrip "petr3.sa".data .DAILY ".parquet".data (by decide) (by decide)
  exact ⟨h.1, h.2 (by decide)⟩

/-- C2: when both the columnar and the delimited-text file for the same
symbol and frequency exist in the directory, `_find_file_for_symbol`
returns the columnar (`.parquet`) one: stage 1 checks the canonical
parquet name before the canonical csv name and the first hit wins. -/
theorem c2_parquet_priority (d : Dir) (symbol : Str) (f : DataFrequency)
    (hp : d.present = true)
    (hpq : generate_filename symbol f ".parquet".data ∈ d.files)
    (_hcsv : generate_filename symbol f ".csv".data ∈ d.files) :
    find_file_for_symbol d symbol (some f) =
      some (generate_filename symbol f ".parquet".data) := by
  simp [find_file_for_symbol, hp, findExact, supportedFormats, List.findSome?_cons, hpq,
    Option.orElse]

/-- Witness for C2 on a two-file directory. -/
theorem c2_parquet_priority_witness :
    find_file_for_symbol ⟨"data".data, true,
        ["aapl_1d.csv".data, "aapl_1d.parquet".data]⟩ "AAPL".data (some .DAILY) =
      some (generate_filename "AAPL".data .DAILY ".parquet".data) :=
  c2_parquet_priority _ "AAPL".data .DAILY rfl (by decide) (by decide)

/-- C3: date-range filtering is inclusive on both bounds — the kept rows
are exactly those `>= start` (when given) and `<= end` (when given),
after bound reconciliation — and the returned metadata records
`filtered=true`, the effective bounds, the original and the filtered row
counts; the 5-row daily example filters to exactly its 3 middle rows. -/
theorem c3_date_filter :
    (∀ (md : MarketData) (sd ed : Option PyDateTime),
      (filter_by_date_range md sd ed).rows =
        md.rows.filter (fun t =>
          (match sd with
           | some b => decide ((reconcileBound md.tz b).wall ≤ t)
           | none => true) &&
          (match ed with
           | some b => decide (t ≤ (reconcileBound md.tz b).wall)
           | none => true)) ∧
      (filter_by_date_range md sd ed).meta =
        some { md.meta.getD {} with
          filtered := some true
          filter_start_date := some (sd.map (reconcileBound md.tz))
          filter_end_date := some (ed.map (reconcileBound md.tz))
          original_rows := some md.rows.length
          filtered_rows := some (filter_by_date_range md sd ed).rows.length }) ∧
    (filter_by_date_range ⟨"AAPL".data, [1, 2, 3, 4, 5], none, none⟩
        (some ⟨2, none⟩) (some ⟨4, none⟩)).rows = [2, 3, 4] ∧
    (filter_by_date_range ⟨"AAPL".data, [1, 2, 3, 4, 5], none, none⟩
        (some ⟨2, none⟩) (some ⟨4, none⟩)).meta =
      some { filtered := some true
             filter_start_date := some (some ⟨2, none⟩)
             filter_end_date := some (some ⟨4, none⟩)
             original_rows := some 5
             filtered_rows := some 3 } := by
  refine ⟨fun md sd ed => ⟨?_, rfl⟩, by decide, by decide⟩
  cases sd with
  | none =>
    cases ed with
    | none => simp [filter_by_date_range]
    | some e => simp [filter_by_date_range]
  | some s =>
    cases ed with
    | none => simp [filter_by_date_range]
    | some e =>
      simp only [filter_by_date_range, Option.map_some', List.filter_filter]
      exact List.filter_congr fun a _ => Bool.and_comm _ _

/-- C4: timezone reconciliation of a filter bound — a naive bound gets an
aware index's timezone attached with the wall value unchanged; an aware
bound is stripped to naive (wall unchanged) when the index is naive; and
when both are aware the bound is converted into the index timezone with
the denoted instant preserved. -/
theorem c4_timezone_reconciliation (z o : Int) (b : PyDateTime) :
    (b.tz = none → reconcileBound (some z) b = ⟨b.wall, some z⟩) ∧
    (b.tz = none → reconcileBound none b = b) ∧
    (b.tz = some o → reconcileBound none b = ⟨b.wall, none⟩) ∧
    (b.tz = some o →
      reconcileBound (some z) b = ⟨b.wall - o + z, some z⟩ ∧
      (reconcileBound (some z) b).wall - z = b.wall - o) := by
  obtain ⟨w, tz⟩ := b
  refine ⟨fun h => ?_, fun h => ?_, fun h => ?_, fun h => ?_⟩ <;>
    cases tz <;> simp_all [reconcileBound]

/-- Witness for C4 at concrete bounds (offsets in minutes). -/
theorem c4_timezone_reconciliation_witness :
    reconcileBound (some 120) ⟨1000, none⟩ = ⟨1000, some 120⟩ ∧
    reconcileBound none ⟨1000, some 60⟩ = ⟨1000, none⟩ ∧
    reconcileBound (some 120) ⟨1000, some 60⟩ = ⟨1060, some 120⟩ :=
  ⟨(c4_timezone_reconciliation 120 60 ⟨1000, none⟩).1 rfl,
   (c4_timezone_reconciliation 120 60 ⟨1000, some 60⟩).2.2.1 rfl,
   ((c4_timezone_reconciliation 120 60 ⟨1000, some 60⟩).2.2.2 rfl).1⟩

/-- C7 counterexample: a record with an unconvertible index and no columns
lacks every required OHLCV column, yet saving fails with the
index-conversion error, which does not name the missing columns. -/
theorem c7_missing_columns_counterexample :
    requiredColumns.filter (fun c => c ∉ (Frame.mk .unconvertible [] []).cols) ≠ [] ∧
    save_to_parquet ⟨.unconvertible, [], []⟩ false = .error .cannotConvertIndex ∧
    save_to_parquet ⟨.unconvertible, [], []⟩ false ≠
      .error (.missingColumns
        (requiredColumns.filter (fun c => c ∉ (Frame.mk .unconvertible [] []).cols))) := by
  decide

/-- C7 (amended): for every record whose index step succeeds and whose
resulting table lacks at least one required OHLCV column, both savers fail
with a format error naming exactly the missing columns; in this model an
error result means no data file and no metadata file is written. -/
theorem c7_missing_columns (df df' : Frame) (hasMeta : Bool)
    (hidx : ensureDatetimeIndex df = .ok df')
    (hmiss : requiredColumns.filter (fun c => c ∉ df'.cols) ≠ []) :
    save_to_parquet df hasMeta =
      .error (.missingColumns (requiredColumns.filter (fun c => c ∉ df'.cols))) ∧
    save_to_csv df hasMeta =
      .error (.missingColumns (requiredColumns.filter (fun c => c ∉ df'.cols))) := by
  have hprep : prepare_data_for_save df =
      .error (.missingColumns (requiredColumns.filter (fun c => c ∉ df'.cols))) := by
    unfold prepare_data_for_save
    rw [hidx]
    dsimp only
    rw [if_pos hmiss]
  exact ⟨by simp [save_to_parquet, hprep], by simp [save_to_csv, hprep]⟩

/-- Witness for C7 on a table with only `open` and `close` columns. -/
theorem c7_missing_columns_witness :
    save_to_parquet ⟨.datetime, ["open".data, "close".data], []⟩ false =
      .error (.missingColumns (requiredColumns.filter
        (fun c => c ∉ (Frame.mk .datetime ["open".data, "close".data] []).cols))) ∧
    save_to_csv ⟨.datetime, ["open".data, "close".data], []⟩ false =
      .error (.missingColumns (requiredColumns.filter
        (fun c => c ∉ (Frame.mk .datetime ["open".data, "close".data] []).cols))) :=
  c7_missing_columns ⟨.datetime, ["open".data, "close".data], []⟩
    ⟨.datetime, ["open".data, "close".data], []⟩ false (by decide) (by decide)

/-! Lemmas for the batch loader. -/

theorem alookup_append_single {α : Type} (m : List (Str × α)) (k : Str) (v : α) (s : Str) :
    alookup (m ++ [(k, v)]) s =
      match alookup m s with
      | some w => some w
      | none => if k = s then some v else none := by
  induction m with
  | nil => rfl
  | cons p r ih =>
    obtain ⟨k', w⟩ := p
    by_cases h : k' = s
    · simp [alookup, h]
    · simp only [List.cons_append, alookup, if_neg h]
      exact ih

theorem gms_foldl_eq (fetch : Str → Except Str MarketData) :
    ∀ (symbols : List Str) (acc : List (Str × MarketData)),
      symbols.Nodup → (∀ s ∈ symbols, alookup acc s = none) →
      symbols.foldl (fun results s =>
        match fetch s with
        | .ok data => dictInsert results s data
        | .error _ => results) acc =
      acc ++ symbols.filterMap (fun s =>
        match fetch s with
        | .ok data => some (s, data)
        | .error _ => none) := by
  intro symbols
  induction symbols with
  | nil => intro acc _ _; simp
  | cons s rest ih =>
    intro acc hnd hnone
    have hnds : s ∉ rest := (List.nodup_cons.mp hnd).1
    have hndr : rest.Nodup := (List.nodup_cons.mp hnd).2
    simp only [List.foldl_cons, List.filterMap_cons]
    cases hf : fetch s with
    | error e =>
      simp only []
      rw [ih acc hndr (fun s' hs' => hnone s' (List.mem_cons_of_mem _ hs'))]
    | ok data =>
      simp only []
      have hins : dictInsert acc s data = acc ++ [(s, data)] := by
        unfold dictInsert
        rw [hnone s (List.mem_cons_self _ _)]
        rfl
      rw [hins, ih (acc ++ [(s, data)]) hndr ?_, List.append_assoc]
      · rfl
      · intro s' hs'
        rw [alookup_append_single, hnone s' (List.mem_cons_of_mem _ hs')]
        have : s ≠ s' := fun h => hnds (h ▸ hs')
        simp [this]

theorem gms_foldl_allfail (fetch : Str → Except Str MarketData) :
    ∀ (symbols : List Str) (acc : List (Str × MarketData)),
      (∀ s ∈ symbols, ∃ e, fetch s = .error e) →
      symbols.foldl (fun results s =>
        match fetch s with
        | .ok data => dictInsert results s data
        | .error _ => results) acc = acc := by
  intro symbols
  induction symbols with
  | nil => intro acc _; rfl
  | cons s rest ih =>
    intro acc hall
    obtain ⟨e, he⟩ := hall s (List.mem_cons_self _ _)
    simp only [List.foldl_cons, he]
    exact ih acc (fun s' hs' => hall s' (List.mem_cons_of_mem _ hs'))

/-- C5: `get_multiple_symbols` calls the fetch once per symbol in input
order, maps each succeeding symbol to its record, silently drops each
failing symbol, returns an empty mapping for empty input, and returns a
(possibly empty) mapping rather than raising even if every symbol fails. -/
theorem c5_partial_failure (fetch : Str → Except Str MarketData) :
    get_multiple_symbols fetch [] = [] ∧
    (∀ symbols : List Str, symbols.Nodup →
      get_multiple_symbols fetch symbols =
        symbols.filterMap (fun s =>
          match fetch s with
          | .ok data => some (s, data)
          | .error _ => none)) ∧
    (∀ symbols : List Str, (∀ s ∈ symbols, ∃ e, fetch s = .error e) →
      get_multiple_symbols fetch symbols = []) := by
  refine ⟨rfl, fun symbols hnd => ?_, fun symbols hall => ?_⟩
  · unfold get_multiple_symbols
    rw [gms_foldl_eq fetch symbols [] hnd (fun _ _ => rfl)]
    rfl
  · unfold get_multiple_symbols
    exact gms_foldl_allfail fetch symbols [] hall

/-- Witness for C5: three symbols, the middle one failing, yield exactly
the two succeeding entries in input order. -/
theorem c5_partial_failure_witness :
    get_multiple_symbols
      (fun s => if s = "MSFT".data then .error "boom".data else .ok ⟨s, [], none, none⟩)
      ["AAPL".data, "MSFT".data, "GOOG".data] =
      [("AAPL".data, ⟨"AAPL".data, [], none, none⟩),
       ("GOOG".data, ⟨"GOOG".data, [], none, none⟩)] := by
  rw [(c5_partial_failure _).2.1 _ (by decide)]
  decide

/-! Lemmas about `str.strip` and `str.upper` needed for symbol
normalization. -/

theorem pyIsSpace_false_of_toNat {c : Char}
    (h : ¬ (c.toNat = 32 ∨ c.toNat = 9 ∨ c.toNat = 10 ∨ c.toNat = 13 ∨
            c.toNat = 11 ∨ c.toNat = 12)) :
    pyIsSpace c = false := by
  unfold pyIsSpace
  simp only [Bool.or_eq_false_iff, decide_eq_false_iff_not]
  refine ⟨⟨⟨⟨⟨?_, ?_⟩, ?_⟩, ?_⟩, ?_⟩, ?_⟩ <;> intro he <;> subst he <;> exact h (by decide)

theorem pyIsSpace_toUpper (c : Char) : pyIsSpace c.toUpper = pyIsSpace c := by
  by_cases h : c.toNat ≥ 97 ∧ c.toNat ≤ 122
  · rw [char_toUpper_eq, if_pos h]
    have ht : (Char.ofNat (c.toNat - 32)).toNat = c.toNat - 32 :=
      char_toNat_ofNat_valid (Or.inl (by omega))
    rw [pyIsSpace_false_of_toNat (by rw [ht]; omega),
      pyIsSpace_false_of_toNat (by omega)]
  · rw [char_toUpper_eq, if_neg h]

theorem dropWhile_rdropWhile {p : Char → Bool} (x : Str) (hx : x.dropWhile p = x) :
    (List.rdropWhile p x).dropWhile p = List.rdropWhile p x := by
  obtain ⟨t, ht⟩ := List.rdropWhile_prefix p x
  cases hr : List.rdropWhile p x with
  | nil => rfl
  | cons a as =>
    have hpa : p a = false := by
      rw [hr] at ht
      by_contra hpa
      have hpa' : p a = true := by
        cases hpab : p a
        · exact absurd hpab hpa
        · rfl
      have hx' : x = a :: (as ++ t) := by rw [← ht]; rfl
      rw [hx', List.dropWhile_cons_of_pos hpa'] at hx
      have := congrArg List.length hx
      simp at this
      have hle := (List.dropWhile_sublist (l := as ++ t) p).length_le
      simp [List.length_append] at hle
      omega
    rw [List.dropWhile_cons_of_neg (by simp [hpa])]

theorem pyStrip_idem (s : Str) : pyStrip (pyStrip s) = pyStrip s := by
  have h1 : (s.dropWhile pyIsSpace).dropWhile pyIsSpace = s.dropWhile pyIsSpace :=
    List.dropWhile_idempotent pyIsSpace s
  have h2 := dropWhile_rdropWhile (s.dropWhile pyIsSpace) h1
  calc pyStrip (pyStrip s)
      = List.rdropWhile pyIsSpace
          ((List.rdropWhile pyIsSpace (s.dropWhile pyIsSpace)).dropWhile pyIsSpace) := rfl
    _ = List.rdropWhile pyIsSpace (List.rdropWhile pyIsSpace (s.dropWhile pyIsSpace)) := by
        rw [h2]
    _ = List.rdropWhile pyIsSpace (s.dropWhile pyIsSpace) :=
        List.rdropWhile_idempotent pyIsSpace (s.dropWhile pyIsSpace)
    _ = pyStrip s := rfl

theorem pyStrip_pyUpper (s : Str) : pyStrip (pyUpper s) = pyUpper (pyStrip s) := by
  have hfun : (pyIsSpace ∘ Char.toUpper) = pyIsSpace := funext fun c => pyIsSpace_toUpper c
  unfold pyStrip pyUpper
  rw [List.dropWhile_map, hfun, ← List.map_reverse, List.dropWhile_map, hfun, ← List.map_reverse]

/-- C8: request symbol normalization trims and upper-cases (`"  aapl  "`
becomes `"AAPL"`), is idempotent (re-validating an accepted symbol is a
no-op, in particular `"AAPL"` is unchanged), and construction fails with a
validation error exactly for the symbols that are empty or blank after
trimming. -/
theorem c8_symbol_normalization :
    validate_symbol "  aapl  ".data = .ok "AAPL".data ∧
    validate_symbol "AAPL".data = .ok "AAPL".data ∧
    (∀ s : Str, (validate_symbol s).bind validate_symbol = validate_symbol s) ∧
    (∀ s : Str, (∃ msg, validate_symbol s = .error msg) ↔ pyStrip s = []) := by
  refine ⟨by decide, by decide, fun s => ?_, fun s => ⟨?_, ?_⟩⟩
  · unfold validate_symbol
    by_cases h1 : s = []
    · rw [if_pos h1]; rfl
    · rw [if_neg h1]
      by_cases h2 : pyUpper (pyStrip s) = []
      · rw [if_pos h2]; rfl
      · rw [if_neg h2]
        show validate_symbol (pyUpper (pyStrip s)) = _
        have hstrip : pyStrip (pyUpper (pyStrip s)) = pyUpper (pyStrip s) := by
          rw [pyStrip_pyUpper, pyStrip_idem]
        unfold validate_symbol
        rw [if_neg h2, hstrip, pyUpper_pyUpper, if_neg h2]
  · rintro ⟨msg, hmsg⟩
    unfold validate_symbol at hmsg
    by_cases h1 : s = []
    · rw [h1]; rfl
    · rw [if_neg h1] at hmsg
      by_cases h2 : pyUpper (pyStrip s) = []
      · exact List.map_eq_nil_iff.mp h2
      · rw [if_neg h2] at hmsg
        exact absurd hmsg (by simp)
  · intro hnil
    by_cases h1 : s = []
    · exact ⟨"Symbol cannot be empty".data, by simp [validate_symbol, h1]⟩
    · have h2 : pyUpper (pyStrip s) = [] := by rw [hnil]; rfl
      exact ⟨"Symbol cannot be empty after cleaning".data, by simp [validate_symbol, h1, h2]⟩

/-! Lemmas for the not-found semantics of the file provider. -/

theorem suffixLower_append_format (pat : Str) (hp : pat ≠ []) {ext : Str}
    (hext : ext ∈ supportedFormats) : suffixLower (pat ++ ext) = ext := by
  have hext' : ext = ".parquet".data ∨ ext = ".csv".data := by
    simpa [supportedFormats] using hext
  rcases hext' with h | h <;> subst h
  · rw [show (".parquet".data : Str) = '.' :: "parquet".data from rfl,
      suffixLower_append _ hp (by decide) (by decide)]
    decide
  · rw [show (".csv".data : Str) = '.' :: "csv".data from rfl,
      suffixLower_append _ hp (by decide) (by decide)]
    decide

theorem find_none_of_no_supported (d : Dir) (symbol : Str) (freq : Option DataFrequency)
    (hno : ∀ fn ∈ d.files, suffixLower fn ∉ supportedFormats) (hsym : symbol ≠ []) :
    find_file_for_symbol d symbol freq = none := by
  unfold find_file_for_symbol
  by_cases hp : d.present
  · rw [if_pos hp]
    have hex : ∀ f, findExact d symbol f = none := by
      intro f
      unfold findExact
      apply List.findSome?_eq_none_iff.mpr
      intro ext hext
      dsimp only
      rw [if_neg (fun hmem => hno _ hmem (by rw [suffixLower_generate symbol f hext]; exact hext))]
    have hleg : findLegacyNamed d symbol = none := by
      unfold findLegacyNamed
      apply List.findSome?_eq_none_iff.mpr
      intro pat hpat
      apply List.findSome?_eq_none_iff.mpr
      intro ext hext
      dsimp only
      have hpne : pat ≠ [] := by
        have hpat' : pat = pyLower symbol ∨ pat = pyUpper symbol ∨ pat = symbol := by
          simpa using hpat
        rcases hpat' with h | h | h <;> subst h <;> simp [pyLower, pyUpper, hsym]
      rw [if_neg (fun hmem =>
        hno _ hmem (by rw [suffixLower_append_format pat hpne hext]; exact hext))]
    have hscan : findByScan d symbol = none := by
      unfold findByScan
      apply List.find?_eq_none.mpr
      intro fn hfn
      simp [hno fn hfn]
    cases freq with
    | none => simp [hleg, hscan, Option.orElse]
    | some f => simp [hex f, hleg, hscan, Option.orElse]
  · rw [if_neg hp]

theorem available_symbols_empty (d : Dir)
    (hno : ∀ fn ∈ d.files, suffixLower fn ∉ supportedFormats) :
    get_available_symbols d = [] := by
  unfold get_available_symbols
  by_cases hp : d.present
  · rw [if_pos hp]
    have hf : d.files.filter (fun fn => decide (suffixLower fn ∈ supportedFormats)) = [] := by
      apply List.filter_eq_nil_iff.mpr
      intro fn hfn
      simp [hno fn hfn]
    rw [hf]
    rfl
  · rw [if_neg hp]

/-- C6: on a missing directory, or a directory holding no file with a
supported extension, `get_available_symbols` returns the empty collection
while `get_data` fails for every (nonempty) symbol with a not-found error
whose message names the symbol, the frequency code, and the search
directory. -/
theorem c6_not_found (d : Dir) (req : MarketDataRequest) (loadFile : Str → MarketData)
    (hempty : d.present = false ∨ ∀ fn ∈ d.files, suffixLower fn ∉ supportedFormats)
    (hsym : req.symbol ≠ []) :
    get_available_symbols d = [] ∧
    get_data d loadFile req = .error (notFoundMsg req.symbol req.frequency d.name) ∧
    req.symbol <:+: notFoundMsg req.symbol req.frequency d.name ∧
    req.frequency.value <:+: notFoundMsg req.symbol req.frequency d.name ∧
    d.name <:+: notFoundMsg req.symbol req.frequency d.name := by
  have hfind : find_file_for_symbol d req.symbol (some req.frequency) = none := by
    rcases hempty with hp | hno
    · unfold find_file_for_symbol
      simp [hp]
    · exact find_none_of_no_supported d req.symbol _ hno hsym
  have havail : get_available_symbols d = [] := by
    rcases hempty with hp | hno
    · unfold get_available_symbols
      simp [hp]
    · exact available_symbols_empty d hno
  refine ⟨havail, ?_, ?_, ?_, ?_⟩
  · unfold get_data
    rw [hfind]
  · exact ⟨"No data file found for symbol ".data,
      " with frequency ".data ++ req.frequency.value ++ " in ".data ++ d.name,
      by simp [notFoundMsg]⟩
  · exact ⟨"No data file found for symbol ".data ++ req.symbol ++ " with frequency ".data,
      " in ".data ++ d.name, by simp [notFoundMsg]⟩
  · exact ⟨"No data file found for symbol ".data ++ req.symbol ++ " with frequency ".data ++
      req.frequency.value ++ " in ".data, [], by simp [notFoundMsg]⟩

/-- Witness for C6 on a directory holding only an unsupported file. -/
theorem c6_not_found_witness :
    get_available_symbols ⟨"data".data, true, ["notes.txt".data]⟩ = [] ∧
    get_data ⟨"data".data, true, ["notes.txt".data]⟩ (fun _ => ⟨[], [], none, none⟩)
        ⟨"AAPL".data, .DAILY, none, none⟩ =
      .error (notFoundMsg "AAPL".data .DAILY "data".data) ∧
    "AAPL".data <:+: notFoundMsg "AAPL".data .DAILY "data".data ∧
    DataFrequency.value .DAILY <:+: notFoundMsg "AAPL".data .DAILY "data".data ∧
    "data".data <:+: notFoundMsg "AAPL".data .DAILY "data".data :=
  c6_not_found ⟨"data".data, true, ["notes.txt".data]⟩ ⟨"AAPL".data, .DAILY, none, none⟩
    (fun _ => ⟨[], [], none, none⟩) (Or.inr (by decide)) (by decide)

/-- C10 (implicit): `get_available_timeframes` does not deduplicate — with
the same symbol+frequency stored both as `.parquet` and `.csv` the
frequency appears twice, once per file, unlike
`get_symbol_timeframe_combinations`, which maps the symbol to the
deduplicated `[DAILY]`; the list is still sorted by code string, and in
general the result is a code-sorted permutation of the per-file
contributions. -/
theorem c10_timeframes_no_dedup :
    (get_available_timeframes ⟨"data".data, true,
        ["aapl_1d.parquet".data, "aapl_1d.csv".data]⟩ "AAPL".data = [.DAILY, .DAILY] ∧
     alookup (get_symbol_timeframe_combinations ⟨"data".data, true,
        ["aapl_1d.parquet".data, "aapl_1d.csv".data]⟩) "AAPL".data = some [.DAILY]) ∧
    (∀ (d : Dir) (symbol : Str), (get_available_timeframes d symbol).Sorted freqLe) ∧
    (∀ (d : Dir) (symbol : Str), d.present = true →
      List.Perm (get_available_timeframes d symbol)
        (d.files.filterMap (timeframeOf symbol))) := by
  refine ⟨⟨by decide, by decide⟩, fun d symbol => ?_, fun d symbol hp => ?_⟩
  · unfold get_available_timeframes
    by_cases hp : d.present
    · rw [if_pos hp]
      exact List.sorted_insertionSort freqLe _
    · rw [if_neg hp]
      exact List.sorted_nil
  · unfold get_available_timeframes
    rw [if_pos hp]
    exact List.perm_insertionSort freqLe _

/-- Witness for C10 on the two-file directory. -/
theorem c10_timeframes_no_dedup_witness :
    List.Perm
      (get_available_timeframes ⟨"data".data, true,
        ["aapl_1d.parquet".data, "aapl_1d.csv".data]⟩ "AAPL".data)
      ((Dir.mk "data".data true ["aapl_1d.parquet".data, "aapl_1d.csv".data]).files.filterMap
        (timeframeOf "AAPL".data)) :=
  c10_timeframes_no_dedup.2.2 ⟨"data".data, true,
    ["aapl_1d.parquet".data, "aapl_1d.csv".data]⟩ "AAPL".data rfl

/-! Lemmas for the symbol/timeframe catalog. -/

theorem alookup_aupdate {α : Type} (m : List (Str × α)) (k : Str) (f : α → α) (s : Str) :
    alookup (aupdate m k f) s =
      if s = k then (alookup m k).map f else alookup m s := by
  induction m with
  | nil => by_cases hs : s = k <;> simp [aupdate, alookup, hs]
  | cons p r ih =>
    obtain ⟨k', v⟩ := p
    simp only [aupdate]
    by_cases hk : k' = k
    · subst hk
      rw [if_pos rfl]
      by_cases hs : k' = s
      · subst hs
        simp [alookup]
      · have hs' : ¬ s = k' := fun h => hs h.symm
        simp [alookup, hs, hs', ih]
    · rw [if_neg hk]
      by_cases hs : k' = s
      · subst hs
        simp [alookup, hk]
      · simp [alookup, hs, hk, ih]

theorem alookup_insertKey (m : List (Str × List DataFrequency)) (k s : Str) :
    alookup (insertKey m k) s =
      match alookup m s with
      | some w => some w
      | none => if k = s then some [] else none := by
  unfold insertKey
  by_cases hin : (alookup m k).isSome
  · rw [if_pos hin]
    cases hms : alookup m s with
    | some w => rfl
    | none =>
      by_cases hks : k = s
      · subst hks
        rw [hms] at hin
        exact absurd hin (by simp)
      · simp [hks]
  · rw [if_neg hin, alookup_append_single]
    cases hms : alookup m s <;> rfl

theorem combosStep_preserves_key (m : List (Str × List DataFrequency)) (fn s : Str)
    (h : (alookup m s).isSome) : (alookup (combosStep m fn) s).isSome := by
  have hm1 : (alookup (insertKey m (parse_filename fn).1) s).isSome := by
    rw [alookup_insertKey]
    cases hms : alookup m s with
    | none => rw [hms] at h; exact absurd h (by simp)
    | some w => simp
  unfold combosStep
  by_cases hsup : suffixLower fn ∈ supportedFormats
  · rw [if_pos hsup]
    cases hpf : (parse_filename fn).2 with
    | none => exact hm1
    | some f =>
      rw [alookup_aupdate]
      by_cases hs : s = (parse_filename fn).1
      · rw [if_pos hs]
        subst hs
        simpa using hm1
      · rw [if_neg hs]
        exact hm1
  · rw [if_neg hsup]
    exact h

theorem combosStep_mem_self (m : List (Str × List DataFrequency)) (fn : Str)
    (hsup : suffixLower fn ∈ supportedFormats) :
    (alookup (combosStep m fn) (parse_filename fn).1).isSome := by
  have hm1 : (alookup (insertKey m (parse_filename fn).1) (parse_filename fn).1).isSome := by
    rw [alookup_insertKey]
    cases hms : alookup m (parse_filename fn).1 with
    | none => simp
    | some w => simp
  unfold combosStep
  rw [if_pos hsup]
  cases hpf : (parse_filename fn).2 with
  | none => exact hm1
  | some f =>
    rw [alookup_aupdate, if_pos rfl]
    simpa using hm1

theorem foldl_combos_preserves (files : List Str) :
    ∀ (m : List (Str × List DataFrequency)) (s : Str),
      (alookup m s).isSome → (alookup (files.foldl combosStep m) s).isSome := by
  induction files with
  | nil => intro m s h; exact h
  | cons fn rest ih =>
    intro m s h
    exact ih (combosStep m fn) s (combosStep_preserves_key m fn s h)

theorem foldl_combos_mem (files : List Str) :
    ∀ (m : List (Str × List DataFrequency)), ∀ fn ∈ files,
      suffixLower fn ∈ supportedFormats →
      (alookup (files.foldl combosStep m) (parse_filename fn).1).isSome := by
  induction files with
  | nil => intro m fn hfn; exact absurd hfn (List.not_mem_nil fn)
  | cons g rest ih =>
    intro m fn hfn hsup
    rcases List.mem_cons.mp hfn with h | h
    · subst h
      exact foldl_combos_preserves rest (combosStep m fn) _ (combosStep_mem_self m fn hsup)
    · exact ih (combosStep m g) fn h hsup

/-- Invariant: every frequency list stored in the accumulator is
duplicate-free. -/
def NodupInv (m : List (Str × List DataFrequency)) : Prop :=
  ∀ s l, alookup m s = some l → l.Nodup

theorem insertKey_nodup (m : List (Str × List DataFrequency)) (k : Str)
    (h : NodupInv m) : NodupInv (insertKey m k) := by
  intro s l hl
  rw [alookup_insertKey] at hl
  cases hms : alookup m s with
  | some w =>
    rw [hms] at hl
    cases hl
    exact h s _ hms
  | none =>
    rw [hms] at hl
    by_cases hks : k = s
    · rw [if_pos hks] at hl
      cases hl
      exact List.nodup_nil
    · rw [if_neg hks] at hl
      exact absurd hl (by simp)

theorem combosStep_nodup (m : List (Str × List DataFrequency)) (fn : Str)
    (h : NodupInv m) : NodupInv (combosStep m fn) := by
  unfold combosStep
  by_cases hsup : suffixLower fn ∈ supportedFormats
  · rw [if_pos hsup]
    cases hpf : (parse_filename fn).2 with
    | none => exact insertKey_nodup m _ h
    | some f =>
      intro s l hl
      rw [alookup_aupdate] at hl
      by_cases hs : s = (parse_filename fn).1
      · rw [if_pos hs] at hl
        cases hm1 : alookup (insertKey m (parse_filename fn).1) (parse_filename fn).1 with
        | none => rw [hm1] at hl; exact absurd hl (by simp)
        | some l0 =>
          rw [hm1] at hl
          have hl0 : l0.Nodup := insertKey_nodup m _ h _ _ hm1
          simp only [Option.map_some'] at hl
          cases hl
          by_cases hf : f ∈ l0
          · rw [if_pos hf]
            exact hl0
          · rw [if_neg hf]
            simp [List.nodup_append, hl0, hf]
      · rw [if_neg hs] at hl
        exact insertKey_nodup m _ h s l hl
  · rw [if_neg hsup]
    exact h

theorem foldl_combos_nodup (files : List Str) :
    ∀ m, NodupInv m → NodupInv (files.foldl combosStep m) := by
  induction files with
  | nil => intro m h; exact h
  | cons fn rest ih => intro m h; exact ih _ (combosStep_nodup m fn h)

/-- Invariant: a symbol whose files seen so far were all legacy is either
still absent or mapped to the empty list. -/
def LegacyInv (s : Str) (m : List (Str × List DataFrequency)) : Prop :=
  alookup m s = none ∨ alookup m s = some []

theorem insertKey_legacy (s : Str) (m : List (Str × List DataFrequency)) (k : Str)
    (h : LegacyInv s m) : LegacyInv s (insertKey m k) := by
  rcases h with h | h
  · rw [LegacyInv, alookup_insertKey, h]
    by_cases hks : k = s
    · right; rw [if_pos hks]
    · left; rw [if_neg hks]
  · right
    rw [alookup_insertKey, h]

theorem combosStep_legacy (s : Str) (m : List (Str × List DataFrequency)) (fn : Str)
    (hleg : suffixLower fn ∈ supportedFormats → (parse_filename fn).1 = s →
      (parse_filename fn).2 = none)
    (h : LegacyInv s m) : LegacyInv s (combosStep m fn) := by
  unfold combosStep
  by_cases hsup : suffixLower fn ∈ supportedFormats
  · rw [if_pos hsup]
    cases hpf : (parse_filename fn).2 with
    | none => exact insertKey_legacy s m _ h
    | some f =>
      have hps : (parse_filename fn).1 ≠ s := by
        intro he
        rw [hleg hsup he] at hpf
        exact Option.noConfusion hpf
      have h1 := insertKey_legacy s m (parse_filename fn).1 h
      rcases h1 with h1 | h1
      · left
        rw [alookup_aupdate, if_neg (fun he => hps he.symm)]
        exact h1
      · right
        rw [alookup_aupdate, if_neg (fun he => hps he.symm)]
        exact h1
  · rw [if_neg hsup]
    exact h

theorem foldl_combos_legacy (s : Str) (files : List Str) :
    ∀ m, (∀ fn ∈ files, suffixLower fn ∈ supportedFormats → (parse_filename fn).1 = s →
      (parse_filename fn).2 = none) →
      LegacyInv s m → LegacyInv s (files.foldl combosStep m) := by
  induction files with
  | nil => intro m _ h; exact h
  | cons fn rest ih =>
    intro m hleg h
    exact ih _ (fun g hg => hleg g (List.mem_cons_of_mem _ hg))
      (combosStep_legacy s m fn (hleg fn (List.mem_cons_self _ _)) h)

theorem alookup_map_sort (m : List (Str × List DataFrequency)) (s : Str) :
    alookup (m.map (fun p => (p.1, sortFreqs p.2))) s = (alookup m s).map sortFreqs := by
  induction m with
  | nil => rfl
  | cons p r ih =>
    obtain ⟨k, v⟩ := p
    by_cases hk : k = s
    · simp [alookup, hk]
    · simp [alookup, hk, ih]

/-- C9: the catalog index built by `get_symbol_timeframe_combinations` has
a key for the decoded symbol of every supported-extension file; a symbol
all of whose files are legacy (no decodable frequency suffix) maps to the
empty list; and every stored frequency list is duplicate-free and sorted
by the lexicographic order on frequency code strings. -/
theorem c9_catalog_index (d : Dir) (hp : d.present = true) :
    (∀ fn ∈ d.files, suffixLower fn ∈ supportedFormats →
      (alookup (get_symbol_timeframe_combinations d) (parse_filename fn).1).isSome) ∧
    (∀ s : Str,
      (∀ fn ∈ d.files, suffixLower fn ∈ supportedFormats →
        (parse_filename fn).1 = s → (parse_filename fn).2 = none) →
      ∀ l, alookup (get_symbol_timeframe_combinations d) s = some l → l = []) ∧
    (∀ s l, alookup (get_symbol_timeframe_combinations d) s = some l →
      l.Nodup ∧ l.Sorted freqLe) := by
  unfold get_symbol_timeframe_combinations
  rw [if_pos hp]
  refine ⟨?_, ?_, ?_⟩
  · intro fn hfn hsup
    rw [alookup_map_sort]
    have h := foldl_combos_mem d.files [] fn hfn hsup
    simpa using h
  · intro s hleg l hl
    rw [alookup_map_sort] at hl
    have hLI := foldl_combos_legacy s d.files [] hleg (Or.inl rfl)
    rcases hLI with h | h
    · rw [h] at hl
      exact absurd hl (by simp)
    · rw [h] at hl
      simp only [Option.map_some'] at hl
      cases hl
      rfl
  · intro s l hl
    rw [alookup_map_sort] at hl
    cases hm : alookup (d.files.foldl combosStep []) s with
    | none =>
      rw [hm] at hl
      exact absurd hl (by simp)
    | some l0 =>
      rw [hm] at hl
      simp only [Option.map_some'] at hl
      cases hl
      have hnd : l0.Nodup :=
        foldl_combos_nodup d.files []
          (by intro s' l' h'; exact absurd h' (by simp [alookup])) s l0 hm
      exact ⟨(List.perm_insertionSort freqLe l0).symm.nodup hnd,
        List.sorted_insertionSort freqLe l0⟩

/-- Witness for C9 on a directory with canonical, legacy and unsupported
files. -/
theorem c9_catalog_index_witness :
    (alookup (get_symbol_timeframe_combinations ⟨"data".data, true,
        ["aapl_1h.parquet".data, "aapl_1d.csv".data, "legacy.csv".data, "notes.txt".data]⟩)
      (parse_filename "aapl_1d.csv".data).1).isSome ∧
    (∀ l, alookup (get_symbol_timeframe_combinations ⟨"data".data, true,
        ["aapl_1h.parquet".data, "aapl_1d.csv".data, "legacy.csv".data, "notes.txt".data]⟩)
      "LEGACY".data = some l → l = []) := by
  have h := c9_catalog_index ⟨"data".data, true,
    ["aapl_1h.parquet".data, "aapl_1d.csv".data, "legacy.csv".data, "notes.txt".data]⟩ rfl
  exact ⟨h.1 "aapl_1d.csv".data (by decide) (by decide),
    h.2.1 "LEGACY".data (by decide)⟩
